import Mathlib

/-!
# Verification of the RUA golden-section search and augmentation policy

Shallow embedding of `wrn2810_cifar10_rua.py`.

The search engine `gss` works with the constants
`invphi = (√5 - 1)/2` and `invphi2 = (3 - √5)/2`.  Every quantity that the
code manipulates lies in the ring ℤ[invphi] = { m + n·invphi : m, n ∈ ℤ }
(note `invphi² = 1 - invphi`), so we represent those reals exactly by the
integer pair `(m, n)`, which keeps the whole model computable.  The
noncomputable valuation `GI.val` ties the representation to ℝ and is used to
prove that the computable comparison, floor and truncation functions agree
with the real ones.
-/

/-- An element `m + n * (√5 - 1)/2` of ℤ[(√5-1)/2]. -/
structure GI where
  m : ℤ
  n : ℤ
  deriving DecidableEq, Repr

namespace GI

/-- The real number represented by `x`. -/
noncomputable def val (x : GI) : ℝ := x.m + x.n * ((Real.sqrt 5 - 1) / 2)

/-- Embedding of the integers. -/
def ofInt (z : ℤ) : GI := ⟨z, 0⟩

/-- Addition: componentwise. -/
def add (x y : GI) : GI := ⟨x.m + y.m, x.n + y.n⟩

/-- Multiplication, using `invphi² = 1 - invphi`. -/
def mul (x y : GI) : GI := ⟨x.m * y.m + x.n * y.n, x.m * y.n + x.n * y.m - x.n * y.n⟩

instance : Add GI := ⟨GI.add⟩

instance : Mul GI := ⟨GI.mul⟩

/-- `invphi = (√5 - 1)/2`, the reciprocal of the golden ratio. -/
def invphi : GI := ⟨0, 1⟩

/-- `invphi2 = (3 - √5)/2 = 1 - invphi = invphi²`. -/
def invphi2 : GI := ⟨1, -1⟩

/-- With `A = 2m - n` and `B = n` we have `x = (A + B√5)/2`. -/
def numA (x : GI) : ℤ := 2 * x.m - x.n

/-- Computable test for `0 ≤ x.val`, by sign analysis of `A + B√5`. -/
def nonneg (x : GI) : Prop :=
  (0 ≤ x.n ∧ (0 ≤ numA x ∨ (numA x) ^ 2 ≤ 5 * x.n ^ 2)) ∨
    (x.n < 0 ∧ 0 ≤ numA x ∧ 5 * x.n ^ 2 ≤ (numA x) ^ 2)

instance (x : GI) : Decidable x.nonneg := by
  unfold nonneg; infer_instance

/-- Fuel-based integer square root step: walk `k` upward while `(k+1)² ≤ n`.
(The library's `Nat.sqrt` is defined by well-founded recursion, which the
kernel cannot evaluate; this structural version evaluates.) -/
def isqrtAux (n : ℕ) : ℕ → ℕ → ℕ
  | 0, k => k
  | fuel+1, k => if (k+1)*(k+1) ≤ n then isqrtAux n fuel (k+1) else k

/-- `⌊√n⌋` on naturals, kernel-computable. -/
def isqrt (n : ℕ) : ℕ := isqrtAux n n 0

/-- `⌊B * √5⌋` computed via the integer square root. -/
def floorMulSqrt5 (B : ℤ) : ℤ :=
  if 0 ≤ B then (isqrt ((5 * B * B).toNat) : ℤ)
  else -(isqrt ((5 * B * B).toNat) : ℤ) - 1

/-- `⌊x.val⌋`, computed exactly:  `x = (A + B√5)/2`. -/
def floor (x : GI) : ℤ := Int.fdiv (numA x + floorMulSqrt5 x.n) 2

/-- Python's `int()` applied to `x.val`: truncation toward zero. -/
def trunc (x : GI) : ℤ :=
  if x.nonneg then x.floor else -(GI.floor ⟨-x.m, -x.n⟩)

theorem val_ofInt (z : ℤ) : (ofInt z).val = z := by
  simp [val, ofInt]

theorem val_add (x y : GI) : (x + y).val = x.val + y.val := by
  show (GI.add x y).val = _
  simp only [val, add]
  push_cast
  ring

theorem sqrt5_sq : Real.sqrt 5 ^ 2 = 5 := Real.sq_sqrt (by norm_num)

theorem sqrt5_lt_three : Real.sqrt 5 < 3 := by
  nlinarith [sqrt5_sq, Real.sqrt_nonneg 5]

theorem two_lt_sqrt5 : 2 < Real.sqrt 5 := by
  nlinarith [sqrt5_sq, Real.sqrt_nonneg 5]

theorem val_mul (x y : GI) : (x * y).val = x.val * y.val := by
  show (GI.mul x y).val = _
  simp only [val, mul]
  push_cast
  linear_combination (-(x.n : ℝ) * y.n / 4) * sqrt5_sq

theorem val_invphi_pos : 0 < invphi.val := by
  simp only [val, invphi]
  push_cast
  nlinarith [two_lt_sqrt5]

theorem val_invphi_lt_one : invphi.val < 1 := by
  simp only [val, invphi]
  push_cast
  nlinarith [sqrt5_lt_three]

theorem val_invphi2 : invphi2.val = 1 - invphi.val := by
  simp only [val, invphi, invphi2]
  push_cast
  ring

theorem val_invphi_sq : invphi.val * invphi.val = invphi2.val := by
  simp only [val, invphi, invphi2]
  push_cast
  nlinarith [sqrt5_sq]

theorem val_invphi2_pos : 0 < invphi2.val := by
  rw [val_invphi2]; linarith [val_invphi_lt_one]

theorem val_invphi2_lt_one : invphi2.val < 1 := by
  rw [val_invphi2]; linarith [val_invphi_pos]

/-- The decomposition underlying `numA`. -/
theorem val_eq_numA (x : GI) : x.val = ((numA x : ℝ) + x.n * Real.sqrt 5) / 2 := by
  simp only [val, numA]
  push_cast
  ring

theorem nonneg_iff (x : GI) : x.nonneg ↔ 0 ≤ x.val := by
  rw [val_eq_numA]
  have h5 := sqrt5_sq
  have h5' := Real.sqrt_nonneg 5
  constructor
  · rintro (⟨hn, hA | hA⟩ | ⟨hn, hA, hB⟩)
    · have : (0:ℝ) ≤ (numA x : ℝ) + x.n * Real.sqrt 5 := by
        have : (0:ℝ) ≤ (x.n : ℝ) * Real.sqrt 5 := by positivity
        have hA' : (0:ℝ) ≤ (numA x : ℝ) := by exact_mod_cast hA
        linarith
      linarith
    · -- 0 ≤ n and A² ≤ 5n²: then -A ≤ n√5
      have hA' : ((numA x : ℝ)) ^ 2 ≤ 5 * (x.n : ℝ) ^ 2 := by exact_mod_cast hA
      have hn' : (0:ℝ) ≤ (x.n : ℝ) := by exact_mod_cast hn
      have hns : (0:ℝ) ≤ (x.n : ℝ) * Real.sqrt 5 := by positivity
      rcases le_or_lt 0 (numA x) with hpos | hneg
      · have : (0:ℝ) ≤ (numA x : ℝ) := by exact_mod_cast hpos
        linarith
      · have hAneg : ((numA x : ℝ)) < 0 := by exact_mod_cast hneg
        have hfac : (0:ℝ) < (x.n : ℝ) * Real.sqrt 5 - (numA x : ℝ) := by linarith
        have hexpand : ((x.n : ℝ) * Real.sqrt 5 - (numA x : ℝ)) *
            ((x.n : ℝ) * Real.sqrt 5 + (numA x : ℝ)) = 5 * (x.n : ℝ) ^ 2 - (numA x : ℝ) ^ 2 := by
          have : ((x.n : ℝ) * Real.sqrt 5) ^ 2 = 5 * (x.n : ℝ) ^ 2 := by
            rw [mul_pow, sqrt5_sq]; ring
          nlinarith [this]
        have hprod : (0:ℝ) ≤ ((x.n : ℝ) * Real.sqrt 5 - (numA x : ℝ)) *
            ((x.n : ℝ) * Real.sqrt 5 + (numA x : ℝ)) := by
          rw [hexpand]; linarith
        have := (mul_nonneg_iff_of_pos_left hfac).mp hprod
        linarith
    · -- n < 0, 0 ≤ A, 5n² ≤ A²: then (-n)√5 ≤ A
      have hA' : (0:ℝ) ≤ (numA x : ℝ) := by exact_mod_cast hA
      have hB' : 5 * (x.n : ℝ) ^ 2 ≤ ((numA x : ℝ)) ^ 2 := by exact_mod_cast hB
      have hn' : (x.n : ℝ) < 0 := by exact_mod_cast hn
      nlinarith
  · intro h
    have hval : (0:ℝ) ≤ (numA x : ℝ) + x.n * Real.sqrt 5 := by linarith
    unfold nonneg
    rcases le_or_lt 0 x.n with hn | hn
    · rcases le_or_lt 0 (numA x) with hA | hA
      · exact Or.inl ⟨hn, Or.inl hA⟩
      · refine Or.inl ⟨hn, Or.inr ?_⟩
        have hA' : ((numA x : ℝ)) < 0 := by exact_mod_cast hA
        have hn' : (0:ℝ) ≤ (x.n : ℝ) := by exact_mod_cast hn
        have : ((numA x : ℝ)) ^ 2 ≤ 5 * (x.n : ℝ) ^ 2 := by nlinarith
        exact_mod_cast this
    · have hn' : (x.n : ℝ) < 0 := by exact_mod_cast hn
      have hns : (0:ℝ) < -(x.n : ℝ) * Real.sqrt 5 := by
        have := two_lt_sqrt5
        nlinarith
      have hA : (0:ℝ) ≤ (numA x : ℝ) := by nlinarith
      have hle : -(x.n : ℝ) * Real.sqrt 5 ≤ (numA x : ℝ) := by linarith
      have hsq := pow_le_pow_left₀ (le_of_lt hns) hle 2
      have hB : 5 * (x.n : ℝ) ^ 2 ≤ ((numA x : ℝ)) ^ 2 := by
        have : (-(x.n : ℝ) * Real.sqrt 5) ^ 2 = 5 * (x.n : ℝ) ^ 2 := by
          rw [mul_pow, sqrt5_sq]; ring
        linarith [this ▸ hsq]
      refine Or.inr ⟨hn, ?_, ?_⟩
      · exact_mod_cast hA
      · exact_mod_cast hB

theorem isqrtAux_spec (n : ℕ) (fuel : ℕ) : ∀ (k : ℕ), k * k ≤ n →
    n < (k + fuel + 1) * (k + fuel + 1) →
    isqrtAux n fuel k * isqrtAux n fuel k ≤ n ∧
      n < (isqrtAux n fuel k + 1) * (isqrtAux n fuel k + 1) := by
  induction fuel with
  | zero =>
    intro k hk hub
    simpa [isqrtAux] using ⟨hk, by simpa using hub⟩
  | succ fuel ih =>
    intro k hk hub
    unfold isqrtAux
    split
    · apply ih
      · assumption
      · have he : k + 1 + fuel + 1 = k + (fuel + 1) + 1 := by ring
        rw [he]
        exact hub
    · exact ⟨hk, by omega⟩

theorem isqrt_spec (n : ℕ) : isqrt n * isqrt n ≤ n ∧ n < (isqrt n + 1) * (isqrt n + 1) := by
  apply isqrtAux_spec
  · simp
  · nlinarith

theorem irrational_sqrt5 : Irrational (Real.sqrt 5) :=
  (Nat.prime_five).irrational_sqrt

/-- For an irrational number the ceiling is the floor plus one. -/
theorem ceil_eq_floor_add_one_of_irrational {t : ℝ} (ht : Irrational t) : ⌈t⌉ = ⌊t⌋ + 1 := by
  have h1 : (⌊t⌋ : ℝ) < t := lt_of_le_of_ne (Int.floor_le t) fun h => (ht.ne_int ⌊t⌋) h.symm
  have h2 : ⌈t⌉ ≤ ⌊t⌋ + 1 := by
    rw [Int.ceil_le]
    push_cast
    linarith [Int.lt_floor_add_one t]
  have h3 : ⌊t⌋ < ⌈t⌉ := by
    have := Int.le_ceil t
    exact_mod_cast h1.trans_le this
  omega

theorem floorMulSqrt5_nonneg_case (B : ℤ) (hB : 0 ≤ B) :
    (isqrt ((5 * B * B).toNat) : ℤ) = ⌊(B : ℝ) * Real.sqrt 5⌋ := by
  set N := (5 * B * B).toNat with hN
  obtain ⟨hlo, hhi⟩ := isqrt_spec N
  have hNval : (N : ℝ) = 5 * (B : ℝ) ^ 2 := by
    have : ((5 * B * B).toNat : ℤ) = 5 * B * B := Int.toNat_of_nonneg (by positivity)
    have h2 : ((N : ℤ) : ℝ) = ((5 * B * B : ℤ) : ℝ) := by exact_mod_cast this
    push_cast at h2 ⊢
    rw [h2]; ring
  have hBs : (B : ℝ) * Real.sqrt 5 = Real.sqrt (5 * (B : ℝ) ^ 2) := by
    rw [Real.sqrt_mul (by norm_num : (0:ℝ) ≤ 5), Real.sqrt_sq (by exact_mod_cast hB)]
    ring
  rw [hBs]
  symm
  rw [Int.floor_eq_iff]
  constructor
  · rw [Real.le_sqrt (by positivity) (by positivity), ← hNval]
    have hlo2 : isqrt N ^ 2 ≤ N := by rw [pow_two]; exact hlo
    exact_mod_cast hlo2
  · rw [Real.sqrt_lt' (by positivity), ← hNval]
    have hhi2 : N < (isqrt N + 1) ^ 2 := by rw [pow_two]; exact hhi
    exact_mod_cast hhi2

theorem floorMulSqrt5_eq (B : ℤ) : floorMulSqrt5 B = ⌊(B : ℝ) * Real.sqrt 5⌋ := by
  unfold floorMulSqrt5
  split
  · exact floorMulSqrt5_nonneg_case B (by assumption)
  · have hB : B < 0 := by omega
    have hflip : 5 * (-B) * (-B) = 5 * B * B := by ring
    have h1 : (isqrt ((5 * B * B).toNat) : ℤ) = ⌊((-B : ℤ) : ℝ) * Real.sqrt 5⌋ := by
      have := floorMulSqrt5_nonneg_case (-B) (by omega)
      rwa [hflip] at this
    have hirr : Irrational (((-B : ℤ) : ℝ) * Real.sqrt 5) := by
      have := irrational_sqrt5.int_mul (show -B ≠ 0 by omega)
      exact this
    have hneg : (B : ℝ) * Real.sqrt 5 = -(((-B : ℤ) : ℝ) * Real.sqrt 5) := by
      push_cast; ring
    rw [hneg, Int.floor_neg, ceil_eq_floor_add_one_of_irrational hirr, ← h1]
    ring

/-- Floor of a real halved, in terms of the integer floor division. -/
theorem floor_div_two_eq_fdiv (r : ℝ) : ⌊r / 2⌋ = Int.fdiv ⌊r⌋ 2 := by
  set k := ⌊r⌋ with hk
  rw [Int.fdiv_eq_ediv _ (by norm_num : (0:ℤ) ≤ 2)]
  have hmod := Int.ediv_add_emod k 2
  have hm0 : 0 ≤ k % 2 := Int.emod_nonneg k (by norm_num)
  have hm1 : k % 2 < 2 := Int.emod_lt_of_pos k (by norm_num)
  set q := k / 2 with hq
  have h1 : 2 * q ≤ k := by omega
  have h2 : k ≤ 2 * q + 1 := by omega
  rw [Int.floor_eq_iff]
  constructor
  · have : ((2 * q : ℤ) : ℝ) ≤ (k : ℝ) := by exact_mod_cast h1
    have hkr : (k : ℝ) ≤ r := Int.floor_le r
    push_cast at this
    linarith
  · have : (k : ℝ) ≤ ((2 * q + 1 : ℤ) : ℝ) := by exact_mod_cast h2
    have hkr : r < (k : ℝ) + 1 := Int.lt_floor_add_one r
    push_cast at this
    linarith

theorem floor_eq (x : GI) : x.floor = ⌊x.val⌋ := by
  rw [val_eq_numA, GI.floor, floor_div_two_eq_fdiv]
  congr 1
  rw [Int.floor_int_add, floorMulSqrt5_eq]

theorem trunc_eq_floor_of_nonneg {x : GI} (h : 0 ≤ x.val) : x.trunc = ⌊x.val⌋ := by
  rw [GI.trunc, if_pos ((nonneg_iff x).mpr h)]
  exact floor_eq x

end GI

/-! ## The golden-section search engine `gss`

The objective (`evaluate_result` in the code) returns floating-point
accuracies, which are linearly ordered; the model is parameterized over an
arbitrary linearly ordered score type `α` and an arbitrary (deterministic)
objective `f : ℤ → α`.  The Python dict `results` is modelled as an
association list in insertion order (`memoInsert` overwrites in place like a
dict assignment), and `evals` records every invocation of the objective, in
order. -/

/-- Python `k in m` / `m[k]` on the memo dict. -/
def memoLookup {α : Type} (m : List (ℤ × α)) (k : ℤ) : Option α :=
  match m with
  | [] => none
  | (k', v) :: rest => if k' = k then some v else memoLookup rest k

/-- Python dict assignment `m[k] = v`: overwrite in place, else append. -/
def memoInsert {α : Type} (m : List (ℤ × α)) (k : ℤ) (v : α) : List (ℤ × α) :=
  match m with
  | [] => [(k, v)]
  | (k', v') :: rest => if k' = k then (k, v) :: rest else (k', v') :: memoInsert rest k v

/-- The local state of `gss`: bracket `a, b`, interior points `c, d`, their
scores `yc, yd`, the width `h`, the memo dict and the trace of objective
invocations. -/
structure GState (α : Type) where
  a : ℤ
  b : ℤ
  c : ℤ
  d : ℤ
  h : GI
  yc : α
  yd : α
  results : List (ℤ × α)
  evals : List ℤ
  deriving DecidableEq

/-- Lines 358-367 of the code: initial bracket and the two unconditional
initial evaluations (`int()` truncation). -/
def gssInit {α : Type} (f : ℤ → α) (a b : ℤ) : GState α :=
  { a := a, b := b,
    c := GI.trunc (GI.ofInt a + GI.invphi2 * GI.ofInt (b - a)),
    d := GI.trunc (GI.ofInt a + GI.invphi * GI.ofInt (b - a)),
    h := GI.ofInt (b - a),
    yc := f (GI.trunc (GI.ofInt a + GI.invphi2 * GI.ofInt (b - a))),
    yd := f (GI.trunc (GI.ofInt a + GI.invphi * GI.ofInt (b - a))),
    results :=
      memoInsert
        (memoInsert [] (GI.trunc (GI.ofInt a + GI.invphi2 * GI.ofInt (b - a)))
          (f (GI.trunc (GI.ofInt a + GI.invphi2 * GI.ofInt (b - a)))))
        (GI.trunc (GI.ofInt a + GI.invphi * GI.ofInt (b - a)))
        (f (GI.trunc (GI.ofInt a + GI.invphi * GI.ofInt (b - a)))),
    evals := [GI.trunc (GI.ofInt a + GI.invphi2 * GI.ofInt (b - a)),
      GI.trunc (GI.ofInt a + GI.invphi * GI.ofInt (b - a))] }

/-- One iteration of the `for` loop (lines 368-390), memo-checked. -/
def gssStep {α : Type} [LinearOrder α] (f : ℤ → α) (s : GState α) : GState α :=
  if s.yd < s.yc then
    match memoLookup s.results (GI.trunc (GI.ofInt s.a + GI.invphi2 * (GI.invphi * s.h))) with
    | some yc =>
        { a := s.a, b := s.d,
          c := GI.trunc (GI.ofInt s.a + GI.invphi2 * (GI.invphi * s.h)), d := s.c,
          h := GI.invphi * s.h, yc := yc, yd := s.yc,
          results := s.results, evals := s.evals }
    | none =>
        { a := s.a, b := s.d,
          c := GI.trunc (GI.ofInt s.a + GI.invphi2 * (GI.invphi * s.h)), d := s.c,
          h := GI.invphi * s.h,
          yc := f (GI.trunc (GI.ofInt s.a + GI.invphi2 * (GI.invphi * s.h))), yd := s.yc,
          results := memoInsert s.results
            (GI.trunc (GI.ofInt s.a + GI.invphi2 * (GI.invphi * s.h)))
            (f (GI.trunc (GI.ofInt s.a + GI.invphi2 * (GI.invphi * s.h)))),
          evals := s.evals ++ [GI.trunc (GI.ofInt s.a + GI.invphi2 * (GI.invphi * s.h))] }
  else
    match memoLookup s.results (GI.trunc (GI.ofInt s.c + GI.invphi * (GI.invphi * s.h))) with
    | some yd =>
        { a := s.c, b := s.b, c := s.d,
          d := GI.trunc (GI.ofInt s.c + GI.invphi * (GI.invphi * s.h)),
          h := GI.invphi * s.h, yc := s.yd, yd := yd,
          results := s.results, evals := s.evals }
    | none =>
        { a := s.c, b := s.b, c := s.d,
          d := GI.trunc (GI.ofInt s.c + GI.invphi * (GI.invphi * s.h)),
          h := GI.invphi * s.h, yc := s.yd,
          yd := f (GI.trunc (GI.ofInt s.c + GI.invphi * (GI.invphi * s.h))),
          results := memoInsert s.results
            (GI.trunc (GI.ofInt s.c + GI.invphi * (GI.invphi * s.h)))
            (f (GI.trunc (GI.ofInt s.c + GI.invphi * (GI.invphi * s.h)))),
          evals := s.evals ++ [GI.trunc (GI.ofInt s.c + GI.invphi * (GI.invphi * s.h))] }

/-- The whole search: 2 initial evaluations, then `total_trial - 2` loop
iterations (`range(total_trial - 2)` is empty for `total_trial < 2`). -/
def gssRun {α : Type} [LinearOrder α] (f : ℤ → α) (a b : ℤ) (total_trial : ℕ) : GState α :=
  (gssStep f)^[total_trial - 2] (gssInit f a b)

/-- The Python default value of the `total_trial` parameter of `gss`. -/
def gss_total_trial_default : ℕ := 10

/-- `gss` invoked without an explicit `total_trial`. -/
def gssRunDefault {α : Type} [LinearOrder α] (f : ℤ → α) (a b : ℤ) : GState α :=
  gssRun f a b gss_total_trial_default

/-- Python `max(results.values())` (`none` on an empty dict, which raises). -/
def listMax {α : Type} [LinearOrder α] : List α → Option α
  | [] => none
  | v :: vs => some (vs.foldl max v)

/-- Lines 391-392: the first memo key (in insertion order) whose score equals
the maximum score, together with that score. -/
def gssReturn {α : Type} [LinearOrder α] (s : GState α) : Option (ℤ × α) :=
  match listMax (s.results.map Prod.snd) with
  | none => none
  | some mx => s.results.find? (fun kv => decide (kv.2 = mx))

/-- The driver `fastestimator_run`: `gss(a=1, b=30, total_trial=7)`. -/
def fastestimator_run {α : Type} [LinearOrder α] (f : ℤ → α) : Option (ℤ × α) :=
  gssReturn (gssRun f 1 30 7)

/-! ### The spec's wording of the same algorithm

For the refinement claim, the same state machine written from the spec's
words, where the interior points are computed with `floor` rather than the
code's `int()` truncation toward zero. -/

/-- Modelled from the spec: the initial state with `c = ⌊a + φ⁻²(b-a)⌋` and
`d = ⌊a + φ⁻¹(b-a)⌋`. -/
def gssSpecInit {α : Type} (f : ℤ → α) (a b : ℤ) : GState α :=
  { a := a, b := b,
    c := GI.floor (GI.ofInt a + GI.invphi2 * GI.ofInt (b - a)),
    d := GI.floor (GI.ofInt a + GI.invphi * GI.ofInt (b - a)),
    h := GI.ofInt (b - a),
    yc := f (GI.floor (GI.ofInt a + GI.invphi2 * GI.ofInt (b - a))),
    yd := f (GI.floor (GI.ofInt a + GI.invphi * GI.ofInt (b - a))),
    results :=
      memoInsert
        (memoInsert [] (GI.floor (GI.ofInt a + GI.invphi2 * GI.ofInt (b - a)))
          (f (GI.floor (GI.ofInt a + GI.invphi2 * GI.ofInt (b - a)))))
        (GI.floor (GI.ofInt a + GI.invphi * GI.ofInt (b - a)))
        (f (GI.floor (GI.ofInt a + GI.invphi * GI.ofInt (b - a)))),
    evals := [GI.floor (GI.ofInt a + GI.invphi2 * GI.ofInt (b - a)),
      GI.floor (GI.ofInt a + GI.invphi * GI.ofInt (b - a))] }

/-- Modelled from the spec: one bracket-update step, with `floor`. -/
def gssSpecStep {α : Type} [LinearOrder α] (f : ℤ → α) (s : GState α) : GState α :=
  if s.yd < s.yc then
    match memoLookup s.results (GI.floor (GI.ofInt s.a + GI.invphi2 * (GI.invphi * s.h))) with
    | some yc =>
        { a := s.a, b := s.d,
          c := GI.floor (GI.ofInt s.a + GI.invphi2 * (GI.invphi * s.h)), d := s.c,
          h := GI.invphi * s.h, yc := yc, yd := s.yc,
          results := s.results, evals := s.evals }
    | none =>
        { a := s.a, b := s.d,
          c := GI.floor (GI.ofInt s.a + GI.invphi2 * (GI.invphi * s.h)), d := s.c,
          h := GI.invphi * s.h,
          yc := f (GI.floor (GI.ofInt s.a + GI.invphi2 * (GI.invphi * s.h))), yd := s.yc,
          results := memoInsert s.results
            (GI.floor (GI.ofInt s.a + GI.invphi2 * (GI.invphi * s.h)))
            (f (GI.floor (GI.ofInt s.a + GI.invphi2 * (GI.invphi * s.h)))),
          evals := s.evals ++ [GI.floor (GI.ofInt s.a + GI.invphi2 * (GI.invphi * s.h))] }
  else
    match memoLookup s.results (GI.floor (GI.ofInt s.c + GI.invphi * (GI.invphi * s.h))) with
    | some yd =>
        { a := s.c, b := s.b, c := s.d,
          d := GI.floor (GI.ofInt s.c + GI.invphi * (GI.invphi * s.h)),
          h := GI.invphi * s.h, yc := s.yd, yd := yd,
          results := s.results, evals := s.evals }
    | none =>
        { a := s.c, b := s.b, c := s.d,
          d := GI.floor (GI.ofInt s.c + GI.invphi * (GI.invphi * s.h)),
          h := GI.invphi * s.h, yc := s.yd,
          yd := f (GI.floor (GI.ofInt s.c + GI.invphi * (GI.invphi * s.h))),
          results := memoInsert s.results
            (GI.floor (GI.ofInt s.c + GI.invphi * (GI.invphi * s.h)))
            (f (GI.floor (GI.ofInt s.c + GI.invphi * (GI.invphi * s.h)))),
          evals := s.evals ++ [GI.floor (GI.ofInt s.c + GI.invphi * (GI.invphi * s.h))] }

/-- Modelled from the spec: the whole search with `floor`. -/
def gssSpecRun {α : Type} [LinearOrder α] (f : ℤ → α) (a b : ℤ) (total_trial : ℕ) : GState α :=
  (gssSpecStep f)^[total_trial - 2] (gssSpecInit f a b)

/-! ## Structural lemmas about the memo and the step -/

theorem memoLookup_eq_none_iff {α : Type} (m : List (ℤ × α)) (k : ℤ) :
    memoLookup m k = none ↔ k ∉ m.map Prod.fst := by
  induction m with
  | nil => simp [memoLookup]
  | cons kv rest ih =>
    obtain ⟨k', v⟩ := kv
    by_cases hk : k' = k
    · subst hk
      simp [memoLookup]
    · simp [memoLookup, hk, ih, Ne.symm hk]

theorem memoInsert_of_not_mem {α : Type} (m : List (ℤ × α)) (k : ℤ) (v : α)
    (h : k ∉ m.map Prod.fst) : memoInsert m k v = m ++ [(k, v)] := by
  induction m with
  | nil => simp [memoInsert]
  | cons kv rest ih =>
    obtain ⟨k', v'⟩ := kv
    simp only [List.map_cons, List.mem_cons, not_or] at h
    simp [memoInsert, if_neg (Ne.symm h.1), ih h.2]

theorem memoInsert_ne_nil {α : Type} (m : List (ℤ × α)) (k : ℤ) (v : α) :
    memoInsert m k v ≠ [] := by
  cases m with
  | nil => simp [memoInsert]
  | cons kv rest =>
    obtain ⟨k', v'⟩ := kv
    by_cases hk : k' = k <;> simp [memoInsert, hk]

/-- Each loop iteration either touches nothing (memo hit) or appends exactly
one fresh level to the memo and to the invocation trace. -/
theorem gssStep_cases {α : Type} [LinearOrder α] (f : ℤ → α) (s : GState α) :
    ((gssStep f s).results = s.results ∧ (gssStep f s).evals = s.evals) ∨
      (∃ k, memoLookup s.results k = none ∧
        (gssStep f s).results = memoInsert s.results k (f k) ∧
        (gssStep f s).evals = s.evals ++ [k]) := by
  unfold gssStep
  by_cases hc : s.yd < s.yc
  · rw [if_pos hc]
    cases hml : memoLookup s.results
        (GI.trunc (GI.ofInt s.a + GI.invphi2 * (GI.invphi * s.h))) with
    | none => exact Or.inr ⟨_, hml, rfl, rfl⟩
    | some yc => exact Or.inl ⟨rfl, rfl⟩
  · rw [if_neg hc]
    cases hml : memoLookup s.results
        (GI.trunc (GI.ofInt s.c + GI.invphi * (GI.invphi * s.h))) with
    | none => exact Or.inr ⟨_, hml, rfl, rfl⟩
    | some yd => exact Or.inl ⟨rfl, rfl⟩

theorem gssInit_evals {α : Type} (f : ℤ → α) (a b : ℤ) :
    (gssInit f a b).evals = [(gssInit f a b).c, (gssInit f a b).d] := rfl

theorem gssInit_results_of_ne {α : Type} (f : ℤ → α) (a b : ℤ)
    (hne : (gssInit f a b).c ≠ (gssInit f a b).d) :
    (gssInit f a b).results =
      [((gssInit f a b).c, f (gssInit f a b).c), ((gssInit f a b).d, f (gssInit f a b).d)] := by
  have hne' : GI.trunc (GI.ofInt a + GI.invphi2 * GI.ofInt (b - a)) ≠
      GI.trunc (GI.ofInt a + GI.invphi * GI.ofInt (b - a)) := hne
  show memoInsert (memoInsert [] _ _) _ _ = _
  simp only [memoInsert, if_neg hne']
  rfl

/-- One step preserves the trace/memo invariant. -/
theorem gssStep_trace_invariant {α : Type} [LinearOrder α] (f : ℤ → α) (s : GState α)
    (c0 d0 : ℤ) (hnd : s.evals.Nodup) (hmap : s.results.map Prod.fst = s.evals)
    (htk : ∃ rest, s.evals = c0 :: d0 :: rest) :
    (gssStep f s).evals.Nodup ∧
      (gssStep f s).results.map Prod.fst = (gssStep f s).evals ∧
      ∃ rest, (gssStep f s).evals = c0 :: d0 :: rest := by
  rcases gssStep_cases f s with ⟨hr, he⟩ | ⟨k, hk, hr, he⟩
  · rw [hr, he]
    exact ⟨hnd, hmap, htk⟩
  · have hknot : k ∉ s.evals := by
      rw [← hmap]
      exact (memoLookup_eq_none_iff _ _).mp hk
    obtain ⟨rest, hrest⟩ := htk
    refine ⟨?_, ?_, ?_⟩
    · rw [he, List.nodup_append]
      exact ⟨hnd, List.nodup_singleton k, by simpa using fun h => hknot h⟩
    · rw [hr, he, memoInsert_of_not_mem _ _ _ (by rw [hmap]; exact hknot),
        List.map_append, hmap]
      rfl
    · exact ⟨rest ++ [k], by rw [he, hrest]; simp⟩

/-- The whole-run trace/memo invariant, assuming distinct initial points. -/
theorem gssRun_trace_invariant {α : Type} [LinearOrder α] (f : ℤ → α) (a b : ℤ)
    (hne : (gssInit f a b).c ≠ (gssInit f a b).d) (n : ℕ) :
    ((gssStep f)^[n] (gssInit f a b)).evals.Nodup ∧
      ((gssStep f)^[n] (gssInit f a b)).results.map Prod.fst =
        ((gssStep f)^[n] (gssInit f a b)).evals ∧
      ∃ rest, ((gssStep f)^[n] (gssInit f a b)).evals =
        (gssInit f a b).c :: (gssInit f a b).d :: rest := by
  induction n with
  | zero =>
    simp only [Function.iterate_zero, id_eq]
    refine ⟨?_, ?_, ⟨[], rfl⟩⟩
    · rw [gssInit_evals]
      simp [hne]
    · rw [gssInit_results_of_ne f a b hne, gssInit_evals]
      rfl
  | succ n ih =>
    rw [Function.iterate_succ_apply']
    exact gssStep_trace_invariant f _ _ _ ih.1 ih.2.1 ih.2.2

theorem gssStep_evals_length {α : Type} [LinearOrder α] (f : ℤ → α) (s : GState α) :
    s.evals.length ≤ (gssStep f s).evals.length ∧
      (gssStep f s).evals.length ≤ s.evals.length + 1 := by
  rcases gssStep_cases f s with ⟨_, he⟩ | ⟨k, _, _, he⟩ <;> rw [he] <;> simp

theorem gssRun_evals_length {α : Type} [LinearOrder α] (f : ℤ → α) (a b : ℤ) (n : ℕ) :
    2 ≤ ((gssStep f)^[n] (gssInit f a b)).evals.length ∧
      ((gssStep f)^[n] (gssInit f a b)).evals.length ≤ 2 + n := by
  induction n with
  | zero => exact ⟨le_refl 2, le_refl 2⟩
  | succ n ih =>
    rw [Function.iterate_succ_apply']
    obtain ⟨h1, h2⟩ := gssStep_evals_length f ((gssStep f)^[n] (gssInit f a b))
    omega

theorem gssInit_results_ne_nil {α : Type} (f : ℤ → α) (a b : ℤ) :
    (gssInit f a b).results ≠ [] := memoInsert_ne_nil _ _ _

theorem gssRun_results_ne_nil {α : Type} [LinearOrder α] (f : ℤ → α) (a b : ℤ) (n : ℕ) :
    ((gssStep f)^[n] (gssInit f a b)).results ≠ [] := by
  induction n with
  | zero => exact gssInit_results_ne_nil f a b
  | succ n ih =>
    rw [Function.iterate_succ_apply']
    rcases gssStep_cases f ((gssStep f)^[n] (gssInit f a b)) with ⟨hr, _⟩ | ⟨k, _, hr, _⟩
    · rw [hr]; exact ih
    · rw [hr]; exact memoInsert_ne_nil _ _ _

theorem foldl_max_le {α : Type} [LinearOrder α] (l : List α) (a : α) :
    a ≤ l.foldl max a ∧ ∀ x ∈ l, x ≤ l.foldl max a := by
  induction l generalizing a with
  | nil => simp
  | cons y ys ih =>
    refine ⟨le_trans (le_max_left a y) (ih (max a y)).1, ?_⟩
    intro x hx
    rcases List.mem_cons.mp hx with hxy | hxys
    · subst hxy
      exact le_trans (le_max_right a x) (ih (max a x)).1
    · exact (ih (max a y)).2 x hxys

theorem foldl_max_mem {α : Type} [LinearOrder α] (l : List α) (a : α) :
    l.foldl max a = a ∨ l.foldl max a ∈ l := by
  induction l generalizing a with
  | nil => exact Or.inl rfl
  | cons y ys ih =>
    have hfold : List.foldl max a (y :: ys) = List.foldl max (max a y) ys := rfl
    rcases ih (max a y) with h | h
    · rcases max_choice a y with hm | hm
      · exact Or.inl (hfold.trans (h.trans hm))
      · exact Or.inr (by rw [hfold, h, hm]; exact List.mem_cons_self y ys)
    · exact Or.inr (by rw [hfold]; exact List.mem_cons_of_mem y h)

theorem listMax_spec {α : Type} [LinearOrder α] {l : List α} (h : l ≠ []) :
    ∃ mx, listMax l = some mx ∧ mx ∈ l ∧ ∀ x ∈ l, x ≤ mx := by
  cases l with
  | nil => exact absurd rfl h
  | cons v vs =>
    refine ⟨vs.foldl max v, rfl, ?_, ?_⟩
    · rcases foldl_max_mem vs v with hm | hm
      · rw [hm]; exact List.mem_cons_self v vs
      · exact List.mem_cons_of_mem v hm
    · intro x hx
      rcases List.mem_cons.mp hx with hxv | hxvs
      · subst hxv; exact (foldl_max_le vs x).1
      · exact (foldl_max_le vs v).2 x hxvs

/-- `gssReturn` on a nonempty memo returns the first (in insertion order)
key-score pair whose score is the maximum score in the memo. -/
theorem gssReturn_first_max {α : Type} [LinearOrder α] (s : GState α)
    (hne : s.results ≠ []) :
    ∃ k v l₁ l₂, gssReturn s = some (k, v) ∧ s.results = l₁ ++ (k, v) :: l₂ ∧
      (∀ kv ∈ s.results, kv.2 ≤ v) ∧ ∀ kv ∈ l₁, kv.2 ≠ v := by
  have hmapne : s.results.map Prod.snd ≠ [] := by
    intro hcon
    exact hne (List.map_eq_nil_iff.mp hcon)
  obtain ⟨mx, hmx, hmem, hbound⟩ := listMax_spec hmapne
  have hex : ∃ kv, kv ∈ s.results ∧ (fun kv => decide (kv.2 = mx)) kv := by
    obtain ⟨kv0, hkv0mem, hkv0⟩ := List.mem_map.mp hmem
    exact ⟨kv0, hkv0mem, by simp [hkv0]⟩
  have hsome : (s.results.find? (fun kv => decide (kv.2 = mx))).isSome :=
    List.find?_isSome.mpr hex
  obtain ⟨kv, hkv⟩ := Option.isSome_iff_exists.mp hsome
  obtain ⟨hpkv, l₁, l₂, hsplit, hprior⟩ := List.find?_eq_some.mp hkv
  have hkv2 : kv.2 = mx := by simpa using hpkv
  refine ⟨kv.1, kv.2, l₁, l₂, ?_, ?_, ?_, ?_⟩
  · rw [gssReturn, hmx]
    exact hkv
  · rw [hsplit]
  · intro kv' hkv'
    rw [hkv2]
    exact hbound kv'.2 (List.mem_map.mpr ⟨kv', hkv', rfl⟩)
  · intro kv' hkv'
    have := hprior kv' hkv'
    rw [hkv2]
    simpa using this

/-! ## The bracket invariant and the `floor`/`int()` correspondence -/

theorem GI.trunc_eq_floor {x : GI} (hx : 0 ≤ x.val) : x.trunc = x.floor :=
  (GI.trunc_eq_floor_of_nonneg hx).trans (GI.floor_eq x).symm

theorem val_arg_invphi2 (z : ℤ) (h : GI) :
    (GI.ofInt z + GI.invphi2 * h).val = (z : ℝ) + GI.invphi2.val * h.val := by
  rw [GI.val_add, GI.val_mul, GI.val_ofInt]

theorem val_arg_invphi (z : ℤ) (h : GI) :
    (GI.ofInt z + GI.invphi * h).val = (z : ℝ) + GI.invphi.val * h.val := by
  rw [GI.val_add, GI.val_mul, GI.val_ofInt]

theorem val_invphi_mul (h : GI) : (GI.invphi * h).val = GI.invphi.val * h.val :=
  GI.val_mul _ _

/-- Geometric invariant of the search state, for an initial bracket `[a0, b0]`:
the current `a` never drops below `a0`, the width stays positive, and the
three points `a`, `c`, `d` keep their golden-section distances to `b0`. -/
def GssInv {α : Type} (a0 b0 : ℤ) (s : GState α) : Prop :=
  a0 ≤ s.a ∧ a0 ≤ s.c ∧ a0 ≤ s.d ∧ 0 < s.h.val ∧
    (s.a : ℝ) + s.h.val ≤ (b0 : ℝ) ∧
    (s.c : ℝ) + GI.invphi.val * s.h.val ≤ (b0 : ℝ) ∧
    (s.d : ℝ) + GI.invphi2.val * s.h.val ≤ (b0 : ℝ) ∧
    ∀ k ∈ s.evals, a0 ≤ k ∧ k ≤ b0

theorem gssStep_fields_pos {α : Type} [LinearOrder α] (f : ℤ → α) (s : GState α)
    (hc : s.yd < s.yc) :
    (gssStep f s).a = s.a ∧
      (gssStep f s).c = GI.trunc (GI.ofInt s.a + GI.invphi2 * (GI.invphi * s.h)) ∧
      (gssStep f s).d = s.c ∧ (gssStep f s).h = GI.invphi * s.h ∧
      ((gssStep f s).evals = s.evals ∨
        (gssStep f s).evals =
          s.evals ++ [GI.trunc (GI.ofInt s.a + GI.invphi2 * (GI.invphi * s.h))]) := by
  unfold gssStep
  rw [if_pos hc]
  cases hml : memoLookup s.results
      (GI.trunc (GI.ofInt s.a + GI.invphi2 * (GI.invphi * s.h))) with
  | none => exact ⟨rfl, rfl, rfl, rfl, Or.inr rfl⟩
  | some yc => exact ⟨rfl, rfl, rfl, rfl, Or.inl rfl⟩

theorem gssStep_fields_neg {α : Type} [LinearOrder α] (f : ℤ → α) (s : GState α)
    (hc : ¬s.yd < s.yc) :
    (gssStep f s).a = s.c ∧ (gssStep f s).c = s.d ∧
      (gssStep f s).d = GI.trunc (GI.ofInt s.c + GI.invphi * (GI.invphi * s.h)) ∧
      (gssStep f s).h = GI.invphi * s.h ∧
      ((gssStep f s).evals = s.evals ∨
        (gssStep f s).evals =
          s.evals ++ [GI.trunc (GI.ofInt s.c + GI.invphi * (GI.invphi * s.h))]) := by
  unfold gssStep
  rw [if_neg hc]
  cases hml : memoLookup s.results
      (GI.trunc (GI.ofInt s.c + GI.invphi * (GI.invphi * s.h))) with
  | none => exact ⟨rfl, rfl, rfl, rfl, Or.inr rfl⟩
  | some yd => exact ⟨rfl, rfl, rfl, rfl, Or.inl rfl⟩

theorem gssStep_eq_spec {α : Type} [LinearOrder α] (f : ℤ → α) (s : GState α)
    (h1 : 0 ≤ (GI.ofInt s.a + GI.invphi2 * (GI.invphi * s.h)).val)
    (h2 : 0 ≤ (GI.ofInt s.c + GI.invphi * (GI.invphi * s.h)).val) :
    gssStep f s = gssSpecStep f s := by
  unfold gssStep gssSpecStep
  rw [GI.trunc_eq_floor h1, GI.trunc_eq_floor h2]

theorem gssInit_eq_spec {α : Type} (f : ℤ → α) (a b : ℤ)
    (h1 : 0 ≤ (GI.ofInt a + GI.invphi2 * GI.ofInt (b - a)).val)
    (h2 : 0 ≤ (GI.ofInt a + GI.invphi * GI.ofInt (b - a)).val) :
    gssInit f a b = gssSpecInit f a b := by
  unfold gssInit gssSpecInit
  rw [GI.trunc_eq_floor h1, GI.trunc_eq_floor h2]

theorem GI.val_invphi_gt_half : 1/2 < GI.invphi.val := by
  simp only [GI.val, GI.invphi]
  push_cast
  nlinarith [GI.two_lt_sqrt5]

set_option maxHeartbeats 2000000 in
/-- One loop iteration preserves the bracket invariant, and (because every
truncated quantity is nonnegative) agrees with the spec's `floor` step. -/
theorem gssStep_inv {α : Type} [LinearOrder α] (f : ℤ → α) (a0 b0 : ℤ) (ha0 : 0 ≤ a0)
    (s : GState α) (hinv : GssInv a0 b0 s) :
    GssInv a0 b0 (gssStep f s) ∧ gssStep f s = gssSpecStep f s := by
  set u := GI.invphi.val with hu_def
  set w := GI.invphi2.val with hw_def
  have hu0 : 0 < u := GI.val_invphi_pos
  have hu1 : u < 1 := GI.val_invphi_lt_one
  have huh : 1/2 < u := GI.val_invphi_gt_half
  have hw : w = 1 - u := GI.val_invphi2
  have huw : u * u = w := GI.val_invphi_sq
  have hw0 : 0 < w := by rw [hw]; linarith
  have hw1 : w < 1 := by rw [hw]; linarith
  have huw' : u * u = 1 - u := by rw [huw, hw]
  have key1 : w * u + w = u := by rw [hw]; linear_combination -huw'
  unfold GssInv at hinv
  obtain ⟨ha, hc, hd, hh, hab, hcb, hdb, hev⟩ := hinv
  have ha0' : (0:ℝ) ≤ (a0 : ℝ) := by exact_mod_cast ha0
  have ha' : (a0:ℝ) ≤ (s.a:ℝ) := by exact_mod_cast ha
  have hc' : (a0:ℝ) ≤ (s.c:ℝ) := by exact_mod_cast hc
  have hws : 0 < u * s.h.val := mul_pos hu0 hh
  have key1h : w * (u * s.h.val) + w * s.h.val = u * s.h.val := by
    linear_combination s.h.val * key1
  have key2h : u * (u * s.h.val) = w * s.h.val := by
    linear_combination s.h.val * huw
  have huhh : u * s.h.val ≤ s.h.val := by
    nlinarith [mul_nonneg (by linarith : (0:ℝ) ≤ 1 - u) (le_of_lt hh)]
  have hwuh : w * (u * s.h.val) ≤ u * s.h.val := by
    nlinarith [mul_nonneg (by linarith : (0:ℝ) ≤ 1 - w) (le_of_lt hws)]
  have hwh_le : w * s.h.val ≤ u * s.h.val := by
    nlinarith [mul_nonneg (by linarith [hw] : (0:ℝ) ≤ u - w) (le_of_lt hh)]
  have hargval1 : (GI.ofInt s.a + GI.invphi2 * (GI.invphi * s.h)).val =
      (s.a:ℝ) + w * (u * s.h.val) := by
    rw [val_arg_invphi2, val_invphi_mul]
  have hargval2 : (GI.ofInt s.c + GI.invphi * (GI.invphi * s.h)).val =
      (s.c:ℝ) + u * (u * s.h.val) := by
    rw [val_arg_invphi, val_invphi_mul]
  have h1 : 0 ≤ (GI.ofInt s.a + GI.invphi2 * (GI.invphi * s.h)).val := by
    rw [hargval1]
    have := mul_pos hw0 hws
    linarith
  have h2 : 0 ≤ (GI.ofInt s.c + GI.invphi * (GI.invphi * s.h)).val := by
    rw [hargval2]
    have := mul_pos hu0 hws
    linarith
  refine ⟨?_, gssStep_eq_spec f s h1 h2⟩
  by_cases hcond : s.yd < s.yc
  · obtain ⟨hfa, hfc, hfd, hfh, hfe⟩ := gssStep_fields_pos f s hcond
    have hnewh : (gssStep f s).h.val = u * s.h.val := by rw [hfh, val_invphi_mul]
    have hcflr : (gssStep f s).c = ⌊(s.a:ℝ) + w * (u * s.h.val)⌋ := by
      rw [hfc, GI.trunc_eq_floor_of_nonneg h1, hargval1]
    have hclb : s.a ≤ (gssStep f s).c := by
      rw [hcflr]
      exact Int.le_floor.mpr (by nlinarith [mul_pos hw0 hws])
    have hcub : ((gssStep f s).c : ℝ) ≤ (s.a:ℝ) + w * (u * s.h.val) := by
      rw [hcflr]
      exact Int.floor_le _
    have hcb0 : ((gssStep f s).c : ℝ) ≤ (b0:ℝ) := by linarith
    unfold GssInv
    refine ⟨?_, ?_, ?_, ?_, ?_, ?_, ?_, ?_⟩
    · rw [hfa]; exact ha
    · exact le_trans ha hclb
    · rw [hfd]; exact hc
    · rw [hnewh]; exact hws
    · rw [hfa, hnewh]; linarith
    · rw [hnewh]; linarith
    · rw [hfd, hnewh]; linarith
    · rcases hfe with he | he
      · rw [he]; exact hev
      · rw [he]
        intro k hk
        rcases List.mem_append.mp hk with hk | hk
        · exact hev k hk
        · have hkc : k = (gssStep f s).c := by
            rw [hfc]
            simpa using hk
          subst hkc
          exact ⟨le_trans ha hclb, by exact_mod_cast hcb0⟩
  · obtain ⟨hfa, hfc, hfd, hfh, hfe⟩ := gssStep_fields_neg f s hcond
    have hnewh : (gssStep f s).h.val = u * s.h.val := by rw [hfh, val_invphi_mul]
    have hdflr : (gssStep f s).d = ⌊(s.c:ℝ) + u * (u * s.h.val)⌋ := by
      rw [hfd, GI.trunc_eq_floor_of_nonneg h2, hargval2]
    have hdlb : s.c ≤ (gssStep f s).d := by
      rw [hdflr]
      exact Int.le_floor.mpr (by nlinarith [mul_pos hu0 hws])
    have hdub : ((gssStep f s).d : ℝ) ≤ (s.c:ℝ) + u * (u * s.h.val) := by
      rw [hdflr]
      exact Int.floor_le _
    have hdb0 : ((gssStep f s).d : ℝ) ≤ (b0:ℝ) := by linarith
    unfold GssInv
    refine ⟨?_, ?_, ?_, ?_, ?_, ?_, ?_, ?_⟩
    · rw [hfa]; exact hc
    · rw [hfc]; exact hd
    · exact le_trans hc hdlb
    · rw [hnewh]; exact hws
    · rw [hfa, hnewh]; linarith
    · rw [hfc, hnewh]; linarith
    · rw [hnewh]; linarith
    · rcases hfe with he | he
      · rw [he]; exact hev
      · rw [he]
        intro k hk
        rcases List.mem_append.mp hk with hk | hk
        · exact hev k hk
        · have hkd : k = (gssStep f s).d := by
            rw [hfd]
            simpa using hk
          subst hkd
          exact ⟨le_trans hc hdlb, by exact_mod_cast hdb0⟩

set_option maxHeartbeats 1000000 in
/-- The initial state satisfies the bracket invariant when `0 ≤ a < b`, and
agrees with the spec's `floor` initialization. -/
theorem gssInit_inv {α : Type} (f : ℤ → α) (a b : ℤ) (ha : 0 ≤ a) (hab : a < b) :
    GssInv a b (gssInit f a b) ∧ gssInit f a b = gssSpecInit f a b := by
  set u := GI.invphi.val with hu_def
  set w := GI.invphi2.val with hw_def
  have hu0 : 0 < u := GI.val_invphi_pos
  have hu1 : u < 1 := GI.val_invphi_lt_one
  have hw : w = 1 - u := GI.val_invphi2
  have hw0 : 0 < w := by rw [hw]; linarith
  have hw1 : w < 1 := by rw [hw]; linarith
  have hwu1 : w + u = 1 := by rw [hw]; ring
  have ha' : (0:ℝ) ≤ (a:ℝ) := by exact_mod_cast ha
  have hab' : (a:ℝ) < (b:ℝ) := by exact_mod_cast hab
  have hhval : (GI.ofInt (b - a)).val = (b:ℝ) - (a:ℝ) := by
    rw [GI.val_ofInt]; push_cast; ring
  have hhpos : 0 < (GI.ofInt (b - a)).val := by rw [hhval]; linarith
  have hargc : (GI.ofInt a + GI.invphi2 * GI.ofInt (b - a)).val =
      (a:ℝ) + w * ((b:ℝ) - (a:ℝ)) := by
    rw [val_arg_invphi2, hhval]
  have hargd : (GI.ofInt a + GI.invphi * GI.ofInt (b - a)).val =
      (a:ℝ) + u * ((b:ℝ) - (a:ℝ)) := by
    rw [val_arg_invphi, hhval]
  have hwba : 0 < w * ((b:ℝ) - (a:ℝ)) := mul_pos hw0 (by linarith)
  have huba : 0 < u * ((b:ℝ) - (a:ℝ)) := mul_pos hu0 (by linarith)
  have hwba1 : w * ((b:ℝ) - (a:ℝ)) < (b:ℝ) - (a:ℝ) := by
    nlinarith [mul_pos (by linarith : (0:ℝ) < 1 - w) (by linarith : (0:ℝ) < (b:ℝ) - (a:ℝ))]
  have huba1 : u * ((b:ℝ) - (a:ℝ)) < (b:ℝ) - (a:ℝ) := by
    nlinarith [mul_pos (by linarith : (0:ℝ) < 1 - u) (by linarith : (0:ℝ) < (b:ℝ) - (a:ℝ))]
  have hargc0 : 0 ≤ (GI.ofInt a + GI.invphi2 * GI.ofInt (b - a)).val := by
    rw [hargc]; linarith
  have hargd0 : 0 ≤ (GI.ofInt a + GI.invphi * GI.ofInt (b - a)).val := by
    rw [hargd]; linarith
  have hceq : (gssInit f a b).c = ⌊(a:ℝ) + w * ((b:ℝ) - (a:ℝ))⌋ := by
    show GI.trunc _ = _
    rw [GI.trunc_eq_floor_of_nonneg hargc0, hargc]
  have hdeq : (gssInit f a b).d = ⌊(a:ℝ) + u * ((b:ℝ) - (a:ℝ))⌋ := by
    show GI.trunc _ = _
    rw [GI.trunc_eq_floor_of_nonneg hargd0, hargd]
  have hclb : a ≤ (gssInit f a b).c := by
    rw [hceq]
    exact Int.le_floor.mpr (by linarith)
  have hdlb : a ≤ (gssInit f a b).d := by
    rw [hdeq]
    exact Int.le_floor.mpr (by linarith)
  have hcub : ((gssInit f a b).c : ℝ) ≤ (a:ℝ) + w * ((b:ℝ) - (a:ℝ)) := by
    rw [hceq]; exact Int.floor_le _
  have hdub : ((gssInit f a b).d : ℝ) ≤ (a:ℝ) + u * ((b:ℝ) - (a:ℝ)) := by
    rw [hdeq]; exact Int.floor_le _
  have hcb0 : ((gssInit f a b).c : ℝ) ≤ (b:ℝ) := by linarith
  have hdb0 : ((gssInit f a b).d : ℝ) ≤ (b:ℝ) := by linarith
  constructor
  · unfold GssInv
    refine ⟨le_refl a, hclb, hdlb, hhpos, ?_, ?_, ?_, ?_⟩
    · show (a:ℝ) + (GI.ofInt (b - a)).val ≤ (b:ℝ)
      rw [hhval]; linarith
    · show ((gssInit f a b).c : ℝ) + u * (GI.ofInt (b - a)).val ≤ (b:ℝ)
      rw [hhval]
      nlinarith [hwu1, hcub]
    · show ((gssInit f a b).d : ℝ) + w * (GI.ofInt (b - a)).val ≤ (b:ℝ)
      rw [hhval]
      nlinarith [hwu1, hdub]
    · intro k hk
      rcases List.mem_cons.mp hk with hk | hk
      · subst hk
        exact ⟨hclb, by exact_mod_cast hcb0⟩
      · rcases List.mem_cons.mp hk with hk | hk
        · subst hk
          exact ⟨hdlb, by exact_mod_cast hdb0⟩
        · cases hk
  · exact gssInit_eq_spec f a b hargc0 hargd0

/-- Whole-run lemma: the invariant holds at every iteration and the code run
coincides with the spec's `floor` formulation, whenever `0 ≤ a < b`. -/
theorem gssRun_inv {α : Type} [LinearOrder α] (f : ℤ → α) (a b : ℤ)
    (ha : 0 ≤ a) (hab : a < b) (n : ℕ) :
    GssInv a b ((gssStep f)^[n] (gssInit f a b)) ∧
      (gssStep f)^[n] (gssInit f a b) = (gssSpecStep f)^[n] (gssSpecInit f a b) := by
  induction n with
  | zero => exact ⟨(gssInit_inv f a b ha hab).1, (gssInit_inv f a b ha hab).2⟩
  | succ n ih =>
    rw [Function.iterate_succ_apply', Function.iterate_succ_apply']
    obtain ⟨hstep, heq⟩ := gssStep_inv f a b ha _ ih.1
    exact ⟨hstep, by rw [← ih.2, heq]⟩

/-! ## `get_probability`, `Posterize`, `Solarize` -/

/-- Lines 282-289: `get_probability(N, P) = 1 - exp(log(1 - P) / N)`. -/
noncomputable def get_probability (N : ℕ) (P : ℝ) : ℝ :=
  1 - Real.exp (Real.log (1 - P) / N)

/-- Python 3's built-in `round`: round half to even, on exact rationals. -/
def pyround (q : ℚ) : ℤ :=
  if q - ⌊q⌋ < 1/2 then ⌊q⌋
  else if 1/2 < q - ⌊q⌋ then ⌊q⌋ + 1
  else if ⌊q⌋ % 2 = 0 then ⌊q⌋ else ⌊q⌋ + 1

/-- Posterize, line 145: `self.bit_loss_limit = level / 30 * 7`. -/
def bit_loss_limit (level : ℚ) : ℚ := level / 30 * 7

/-- Posterize, line 149: `bits_to_keep = 8 - round(random.uniform(0, limit))`,
as a function of the drawn value `u`. -/
def bits_to_keep (u : ℚ) : ℤ := 8 - pyround u

/-- Solarize, line 158: `self.loss_limit = level / 30 * 256`. -/
def loss_limit (level : ℚ) : ℚ := level / 30 * 256

/-- Solarize, line 161: `threshold = 256 - round(random.uniform(0, limit))`. -/
def solarize_threshold (u : ℚ) : ℤ := 256 - pyround u

/-- Solarize, line 162: `np.where(data < threshold, data, 255 - data)`,
elementwise over the pixel array. -/
def solarize (threshold : ℤ) (data : List ℤ) : List ℤ :=
  data.map fun v => if v < threshold then v else 255 - v

theorem pyround_bounds (q : ℚ) : ⌊q⌋ ≤ pyround q ∧ pyround q ≤ ⌊q⌋ + 1 := by
  unfold pyround
  split_ifs <;> omega

theorem pyround_nonneg {q : ℚ} (h : 0 ≤ q) : 0 ≤ pyround q :=
  le_trans (Int.floor_nonneg.mpr h) (pyround_bounds q).1

theorem pyround_le_seven {q : ℚ} (h : q ≤ 7) : pyround q ≤ 7 := by
  have hfl : ⌊q⌋ ≤ 7 := by
    have h7 : ⌊q⌋ ≤ ⌊(7:ℚ)⌋ := Int.floor_le_floor h
    simpa using h7
  rcases lt_or_eq_of_le hfl with hlt | heq
  · have := (pyround_bounds q).2
    omega
  · have hq7 : (7:ℚ) ≤ q := by
      have := Int.floor_le q
      rw [heq] at this
      exact_mod_cast this
    have hq : q = 7 := le_antisymm h hq7
    subst hq
    norm_num [pyround]

/-! ## Claim theorems -/

/-- C1 (counterexample): the claim's update rule uses `floor`, but the code
uses Python's `int()` (truncation toward zero); at `a = -2`, `b = -1`, `T = 2`
the code evaluates interior point `-1` where the spec's rule gives `-2`, so
the runs differ. -/
theorem gss_trunc_ne_floor_cex :
    gssRun (fun _ => (0:ℤ)) (-2) (-1) 2 ≠ gssSpecRun (fun _ => (0:ℤ)) (-2) (-1) 2 := by
  decide

/-- C1 (amended): for every integer interval with `0 ≤ a < b` (so every
interior quantity is nonnegative and truncation coincides with `floor`),
every budget and every objective, the code's run agrees exactly with the
spec's golden-section bracket-update algorithm, including the initial points
`c = ⌊a + φ⁻²(b-a)⌋`, `d = ⌊a + φ⁻¹(b-a)⌋`, the two update rules and the
memo-checked evaluations. -/
theorem gss_code_eq_spec_floor {α : Type} [LinearOrder α] (f : ℤ → α) (a b : ℤ)
    (T : ℕ) (ha : 0 ≤ a) (hab : a < b) :
    gssRun f a b T = gssSpecRun f a b T := by
  unfold gssRun gssSpecRun
  exact (gssRun_inv f a b ha hab (T - 2)).2

/-- C1 (witness): the amended equivalence at `a = 1`, `b = 30`, `T = 7` with
the identity objective. -/
theorem gss_code_eq_spec_floor_witness :
    ((0:ℤ) ≤ 1 ∧ (1:ℤ) < 30) ∧
      gssRun (fun k => k) 1 30 7 = gssSpecRun (fun k => k) 1 30 7 :=
  ⟨⟨by decide, by decide⟩,
    gss_code_eq_spec_floor (fun k => k) 1 30 7 (by decide) (by decide)⟩

/-- C2 (counterexample): at `a = 1`, `b = 2` (budget 2) both initial interior
points are the level `1`, so the objective is invoked twice with the same
integer level and the first two evaluations are not distinct. -/
theorem gss_reevaluates_cex :
    (gssRun (fun _ => (0:ℤ)) 1 2 2).evals = [1, 1] ∧
      ¬(gssRun (fun _ => (0:ℤ)) 1 2 2).evals.Nodup := by
  decide

/-- C2 (amended): whenever the two initial interior points are distinct (which
fails only on narrow intervals such as `b - a = 1`), gss never invokes the
objective twice with the same integer level, never overwrites a memoized
score (the memo keys in insertion order coincide with the invocation trace),
and the first two invocations are the two distinct initial points. -/
theorem gss_no_reevaluation {α : Type} [LinearOrder α] (f : ℤ → α) (a b : ℤ)
    (T : ℕ) (hne : (gssInit f a b).c ≠ (gssInit f a b).d) :
    (gssRun f a b T).evals.Nodup ∧
      (gssRun f a b T).results.map Prod.fst = (gssRun f a b T).evals ∧
      ∃ rest, (gssRun f a b T).evals =
        (gssInit f a b).c :: (gssInit f a b).d :: rest :=
  gssRun_trace_invariant f a b hne (T - 2)

/-- C2 (witness): the amended statement at `a = 1`, `b = 30`, `T = 7` with the
identity objective (initial points 12 and 18). -/
theorem gss_no_reevaluation_witness :
    (gssInit (fun k => k) 1 30).c ≠ (gssInit (fun k => k) 1 30).d ∧
      ((gssRun (fun k => k) 1 30 7).evals.Nodup ∧
        (gssRun (fun k => k) 1 30 7).results.map Prod.fst =
          (gssRun (fun k => k) 1 30 7).evals ∧
        ∃ rest, (gssRun (fun k => k) 1 30 7).evals =
          (gssInit (fun k => k) 1 30).c :: (gssInit (fun k => k) 1 30).d :: rest) :=
  ⟨by decide, gss_no_reevaluation (fun k => k) 1 30 7 (by decide)⟩

/-- C3: gss returns the memoized level with the maximum score together with
that score; with ties, the first such level in iteration (= insertion) order
over the memo: the returned pair occurs in the memo, its score bounds every
memoized score, and every earlier memo entry has a strictly different
score. -/
theorem gss_returns_first_max {α : Type} [LinearOrder α] (f : ℤ → α) (a b : ℤ)
    (T : ℕ) :
    ∃ k v l₁ l₂,
      gssReturn (gssRun f a b T) = some (k, v) ∧
      (gssRun f a b T).results = l₁ ++ (k, v) :: l₂ ∧
      (∀ kv ∈ (gssRun f a b T).results, kv.2 ≤ v) ∧
      ∀ kv ∈ l₁, kv.2 ≠ v :=
  gssReturn_first_max _ (gssRun_results_ne_nil f a b (T - 2))

/-- C4 (counterexample): with `a = 1`, `b = 2`, `T = 3` the loop's single
iteration finds its new point already memoized, so the objective is invoked
only 2 times, not exactly `T = 3`. -/
theorem gss_eval_count_cex :
    (gssRun (fun _ => (0:ℤ)) 1 2 3).evals.length = 2 ∧
      (gssRun (fun _ => (0:ℤ)) 1 2 3).evals.length ≠ 3 := by
  decide

/-- C4 (amended): for every budget `T ≥ 2` the search always runs exactly
`T - 2` loop iterations (no adaptive stopping) and performs between 2 and `T`
objective invocations: 2 initial ones plus at most one per iteration — an
iteration whose new point is already memoized performs none. -/
theorem gss_eval_count_bounds {α : Type} [LinearOrder α] (f : ℤ → α) (a b : ℤ)
    (T : ℕ) (hT : 2 ≤ T) :
    2 ≤ (gssRun f a b T).evals.length ∧ (gssRun f a b T).evals.length ≤ T := by
  unfold gssRun
  obtain ⟨h1, h2⟩ := gssRun_evals_length f a b (T - 2)
  exact ⟨h1, by omega⟩

/-- C4 (witness): the amended bounds at `a = 1`, `b = 30`, `T = 7` with the
identity objective. -/
theorem gss_eval_count_bounds_witness :
    (2:ℕ) ≤ 7 ∧
      (2 ≤ (gssRun (fun k => k) 1 30 7).evals.length ∧
        (gssRun (fun k => k) 1 30 7).evals.length ≤ 7) :=
  ⟨by decide, gss_eval_count_bounds (fun k => k) 1 30 7 (by decide)⟩

/-- C5: `p = get_probability(N, P)` satisfies `1 - (1 - p)^N = P` exactly in
real arithmetic, for every integer `N ≥ 1` and every `P ∈ (0, 1)`. -/
theorem get_probability_exact (N : ℕ) (P : ℝ) (hN : 1 ≤ N) (hP0 : 0 < P)
    (hP1 : P < 1) : 1 - (1 - get_probability N P) ^ N = P := by
  unfold get_probability
  have h1P : 0 < 1 - P := by linarith
  have hNne : (N:ℝ) ≠ 0 := Nat.cast_ne_zero.mpr (by omega)
  have hsimp : (1:ℝ) - (1 - Real.exp (Real.log (1 - P) / N)) =
      Real.exp (Real.log (1 - P) / N) := by ring
  rw [hsimp, ← Real.exp_nat_mul]
  have hmul : (N:ℝ) * (Real.log (1 - P) / N) = Real.log (1 - P) := by
    field_simp
  rw [hmul, Real.exp_log h1P]
  ring

/-- C5 (witness): the contract at `N = 1`, `P = 1/2`. -/
theorem get_probability_exact_witness :
    ((1:ℕ) ≤ 1 ∧ (0:ℝ) < 1/2 ∧ (1/2:ℝ) < 1) ∧
      1 - (1 - get_probability 1 (1/2)) ^ 1 = (1/2:ℝ) :=
  ⟨⟨le_refl 1, by norm_num, by norm_num⟩,
    get_probability_exact 1 (1/2) (le_refl 1) (by norm_num) (by norm_num)⟩

/-- C6: for every level in `[0, 30]` and every draw `u ∈ [0, level/30*7]`,
Posterize's `bits_to_keep = 8 - round(u)` is an integer in `[0, 8]`; in
particular it is never negative. -/
theorem posterize_bits_in_range (level u : ℚ) (hl0 : 0 ≤ level)
    (hl30 : level ≤ 30) (hu0 : 0 ≤ u) (hu : u ≤ bit_loss_limit level) :
    0 ≤ bits_to_keep u ∧ bits_to_keep u ≤ 8 := by
  have hlim : bit_loss_limit level ≤ 7 := by
    unfold bit_loss_limit
    rw [div_mul_eq_mul_div, div_le_iff₀ (by norm_num : (0:ℚ) < 30)]
    linarith
  have h7 : u ≤ 7 := le_trans hu hlim
  have h1 := pyround_nonneg hu0
  have h2 := pyround_le_seven h7
  unfold bits_to_keep
  omega

/-- C6 (witness): the extreme case `level = 30`, `u = 7`. -/
theorem posterize_bits_in_range_witness :
    ((0:ℚ) ≤ 30 ∧ (30:ℚ) ≤ 30 ∧ (0:ℚ) ≤ 7 ∧ (7:ℚ) ≤ bit_loss_limit 30) ∧
      (0 ≤ bits_to_keep 7 ∧ bits_to_keep 7 ≤ 8) :=
  ⟨⟨by norm_num, le_refl 30, by norm_num, by norm_num [bit_loss_limit]⟩,
    posterize_bits_in_range 30 7 (by norm_num) (le_refl 30) (by norm_num)
      (by norm_num [bit_loss_limit])⟩

/-- C7: for every drawn threshold `t = 256 - round(u)` and every pixel array,
the output pixel at any index equals `255 - v` when the input value `v`
satisfies `v ≥ t`, and equals `v` unchanged when `v < t`. -/
theorem solarize_pixel (u : ℚ) (data : List ℤ) (i : ℕ) (v : ℤ)
    (hv : data[i]? = some v) :
    (solarize_threshold u ≤ v →
        (solarize (solarize_threshold u) data)[i]? = some (255 - v)) ∧
      (v < solarize_threshold u →
        (solarize (solarize_threshold u) data)[i]? = some v) := by
  constructor <;> intro h <;> unfold solarize <;> rw [List.getElem?_map, hv]
  · simp [if_neg (not_lt.mpr h)]
  · simp [if_pos h]

/-- C7 (witness): a two-pixel gradient `[0, 255]` with draw `u = 0`
(threshold 256): pixel 255 < 256 stays unchanged. -/
theorem solarize_pixel_witness :
    ([0, 255] : List ℤ)[1]? = some 255 ∧
      ((solarize_threshold 0 ≤ 255 →
          (solarize (solarize_threshold 0) [0, 255])[1]? = some (255 - 255)) ∧
        (255 < solarize_threshold 0 →
          (solarize (solarize_threshold 0) [0, 255])[1]? = some 255)) :=
  ⟨rfl, solarize_pixel 0 [0, 255] 1 255 rfl⟩

/-- C8 (counterexample): with the malformed bounds `a = 2 ≥ b = 1` and the
minimal budget, gss does not reject the input: it proceeds, performs its two
initial evaluations (both at level 1) and returns a result. -/
theorem gss_accepts_malformed_cex :
    (gssRun (fun _ => (0:ℤ)) 2 1 2).evals = [1, 1] ∧
      gssReturn (gssRun (fun _ => (0:ℤ)) 2 1 2) = some (1, 0) := by
  decide

/-- C8 (amended): gss performs no input validation: for any interval bounds
(including `a ≥ b`) and any budget `T ≤ 2` (including `T < 2`), the search is
not rejected — it still performs exactly its 2 unconditional initial
objective evaluations and returns a memo-based result. -/
theorem gss_no_validation {α : Type} [LinearOrder α] (f : ℤ → α) (a b : ℤ)
    (T : ℕ) (hT : T ≤ 2) :
    (gssRun f a b T).evals.length = 2 ∧
      (gssReturn (gssRun f a b T)).isSome := by
  have hn : T - 2 = 0 := by omega
  unfold gssRun
  rw [hn]
  simp only [Function.iterate_zero, id_eq]
  refine ⟨rfl, ?_⟩
  obtain ⟨k, v, l1, l2, hret, -, -, -⟩ :=
    gssReturn_first_max (gssInit f a b) (gssInit_results_ne_nil f a b)
  rw [hret]
  rfl

/-- C8 (witness): the amended statement at the malformed input `a = 2`,
`b = 1`, `T = 2`. -/
theorem gss_no_validation_witness :
    (2:ℕ) ≤ 2 ∧
      ((gssRun (fun _ => (0:ℤ)) 2 1 2).evals.length = 2 ∧
        (gssReturn (gssRun (fun _ => (0:ℤ)) 2 1 2)).isSome) :=
  ⟨le_refl 2, gss_no_validation (fun _ => 0) 2 1 2 (le_refl 2)⟩

/-- C9 (counterexample): the default value of `total_trial` is not 7. -/
theorem gss_default_trial_ne_seven : gss_total_trial_default ≠ 7 := by decide

/-- C9 (amended): the default trial budget of `gss` is 10 (`total_trial=10`);
the driver `fastestimator_run` passes `total_trial=7` explicitly. -/
theorem gss_default_trial_is_ten :
    gss_total_trial_default = 10 ∧
      (∀ (f : ℤ → ℤ) (a b : ℤ), gssRunDefault f a b = gssRun f a b 10) ∧
      ∀ (f : ℤ → ℤ), fastestimator_run f = gssReturn (gssRun f 1 30 7) :=
  ⟨rfl, fun _ _ _ => rfl, fun _ => rfl⟩

/-- C10 (counterexample): with `a = -2`, `b = -1`, `T = 3` the third evaluated
level is `0`, outside the initial bracket `[-2, -1]` (truncation toward zero
moves the point up across the bracket). -/
theorem gss_eval_escapes_bracket_cex :
    ¬(∀ k ∈ (gssRun (fun _ => (0:ℤ)) (-2) (-1) 3).evals, -2 ≤ k ∧ k ≤ -1) := by
  decide

/-- C10 (amended): for every interval with `0 ≤ a < b`, every budget and every
objective, every level that gss passes to the objective lies within the
initial closed interval `[a, b]`, even though `h` is updated muliplicatively. -/
theorem gss_evals_within_bracket {α : Type} [LinearOrder α] (f : ℤ → α)
    (a b : ℤ) (T : ℕ) (ha : 0 ≤ a) (hab : a < b) :
    ∀ k ∈ (gssRun f a b T).evals, a ≤ k ∧ k ≤ b := by
  have h := (gssRun_inv f a b ha hab (T - 2)).1
  unfold GssInv at h
  exact h.2.2.2.2.2.2.2

/-- C10 (witness): the amended statement at `a = 1`, `b = 30`, `T = 7` with
the identity objective. -/
theorem gss_evals_within_bracket_witness :
    ((0:ℤ) ≤ 1 ∧ (1:ℤ) < 30) ∧
      ∀ k ∈ (gssRun (fun k => k) 1 30 7).evals, 1 ≤ k ∧ k ≤ 30 :=
  ⟨⟨by decide, by decide⟩,
    gss_evals_within_bracket (fun k => k) 1 30 7 (by decide) (by decide)⟩
